import Mathlib

/-!
Verification of the clipboard-history store of `clipse` (src/selector/main.go).

The Go program keeps a clipboard history as a JSON-backed list of
`ClipboardItem { Value, Recorded }`, newest first.  The listener loop
(`runListener`) inserts the current clipboard text when it is non-empty and
not already present, evicting the last element when the list already holds
50 or more entries, and prepends the new item.  The browser session deletes
entries by value (`deleteJsonItem`) and copies the selected entry's full
value to the clipboard (`newItemDelegate`).  This file embeds those
operations as pure Lean functions and proves the specification's claims
about them.
-/

/-- Mirrors Go `ClipboardItem { Value string; Recorded string }`
(listener section of src/selector/main.go). -/
structure ClipboardItem where
  value : String
  recorded : String
deriving DecidableEq, Repr

/-- Mirrors Go `Data { ClipboardHistory []ClipboardItem }`. -/
structure Data where
  ClipboardHistory : List ClipboardItem
deriving DecidableEq, Repr

/-- The capacity literal `50` of `runListener`
(`if len(data.ClipboardHistory) >= 50`), named `MAX_ENTRIES` as in the spec. -/
def MAX_ENTRIES : Nat := 50

/-- Mirrors Go `contains(slice []ClipboardItem, str string) bool`:
true iff some item of the slice has `Value == str`. -/
def contains (slice : List ClipboardItem) (str : String) : Bool :=
  slice.any fun item => item.value == str

/-- The add-to-history step of `runListener` (src/selector/main.go lines
55-66) as a pure function of the in-memory history, the clipboard text and
the recorded-time string: if the text is non-empty and not already present,
drop the last entry when the length is at least 50, then prepend
`{Value: text, Recorded: now}`; otherwise return the history unchanged. -/
def insertStep (history : List ClipboardItem) (text now : String) : List ClipboardItem :=
  if text != "" && !contains history text then
    let history' := if history.length ≥ MAX_ENTRIES then history.dropLast else history
    ⟨text, now⟩ :: history'
  else
    history

/-- A sequence of `insertStep` calls (text, now pairs) starting from the
empty store, as performed by successive iterations of the listener loop. -/
def insertSeq (ops : List (String × String)) : List ClipboardItem :=
  ops.foldl (fun h p => insertStep h p.1 p.2) []

/-- The values of the stored entries, in order. -/
def valuesOf (history : List ClipboardItem) : List String :=
  history.map ClipboardItem.value

lemma contains_eq_false_iff (h : List ClipboardItem) (s : String) :
    contains h s = false ↔ ∀ it ∈ h, it.value ≠ s := by
  simp [contains]

lemma not_mem_map_value (h : List ClipboardItem) (s : String)
    (hc : contains h s = false) : s ∉ h.map ClipboardItem.value := by
  rw [contains_eq_false_iff] at hc
  simp only [List.mem_map]
  rintro ⟨it, hit, rfl⟩
  exact hc it hit rfl

lemma nodup_insertStep (h : List ClipboardItem) (t n : String)
    (hd : (valuesOf h).Nodup) : (valuesOf (insertStep h t n)).Nodup := by
  unfold insertStep
  simp only [valuesOf] at hd ⊢
  split
  · rename_i hcond
    have hc : contains h t = false := by
      rcases Bool.and_eq_true_iff.mp hcond with ⟨-, h2⟩
      simpa using h2
    have hnm := not_mem_map_value h t hc
    have hsub : (h.dropLast.map ClipboardItem.value).Sublist (h.map ClipboardItem.value) :=
      (List.dropLast_sublist h).map ClipboardItem.value
    split
    · simp only [List.map_cons]
      exact List.nodup_cons.mpr ⟨fun hm => hnm (hsub.subset hm), hsub.nodup hd⟩
    · simp only [List.map_cons]
      exact List.nodup_cons.mpr ⟨hnm, hd⟩
  · exact hd

lemma length_insertStep_le (h : List ClipboardItem) (t n : String)
    (hl : h.length ≤ MAX_ENTRIES) : (insertStep h t n).length ≤ MAX_ENTRIES := by
  unfold insertStep
  simp only [MAX_ENTRIES] at hl ⊢
  split
  · split
    · rename_i hlen
      simp only [List.length_cons, List.length_dropLast]
      omega
    · rename_i hlen
      simp only [List.length_cons]
      omega
  · exact hl

lemma insertSeq_invariant (ops : List (String × String)) :
    ∀ h : List ClipboardItem, (valuesOf h).Nodup → h.length ≤ MAX_ENTRIES →
      (valuesOf (ops.foldl (fun acc p => insertStep acc p.1 p.2) h)).Nodup ∧
      (ops.foldl (fun acc p => insertStep acc p.1 p.2) h).length ≤ MAX_ENTRIES := by
  induction ops with
  | nil => exact fun h hd hl => ⟨hd, hl⟩
  | cons p ps ih =>
      intro h hd hl
      exact ih _ (nodup_insertStep h p.1 p.2 hd) (length_insertStep_le h p.1 p.2 hl)

/-- C1: for every sequence of insert calls (the listener's add-to-history
step) starting from the empty store, no two entries of the resulting store
have equal `value`. -/
theorem insertSeq_values_pairwise_ne (ops : List (String × String)) :
    (insertSeq ops).Pairwise fun a b => a.value ≠ b.value := by
  have hd : (valuesOf (insertSeq ops)).Nodup :=
    (insertSeq_invariant ops [] (by simp [valuesOf]) (by simp [MAX_ENTRIES])).1
  rw [valuesOf, List.Nodup, List.pairwise_map] at hd
  exact hd

/-- C4: when the candidate text is non-empty and not already present,
the insert step prepends `{value: text, recorded: now}` at index 0; the
rest of the store (after the conditional eviction) follows it. -/
theorem insertStep_prepends (h : List ClipboardItem) (t n : String)
    (ht : (t == "") = false) (hc : contains h t = false) :
    (insertStep h t n)[0]? = some ⟨t, n⟩ ∧
    insertStep h t n = ⟨t, n⟩ :: (if h.length ≥ MAX_ENTRIES then h.dropLast else h) := by
  have hcond : (t != "" && !contains h t) = true := by
    simp [bne, ht, hc]
  have hstep : insertStep h t n =
      ⟨t, n⟩ :: (if h.length ≥ MAX_ENTRIES then h.dropLast else h) := by
    unfold insertStep
    rw [if_pos hcond]
  exact ⟨by rw [hstep]; simp, hstep⟩

/-- C4 witness at a concrete input. -/
theorem insertStep_prepends_witness :
    (insertStep [⟨"b", "1"⟩] "a" "2")[0]? = some ⟨"a", "2"⟩ ∧
    insertStep [⟨"b", "1"⟩] "a" "2" =
      ⟨"a", "2"⟩ :: (if ([⟨"b", "1"⟩] : List ClipboardItem).length ≥ MAX_ENTRIES
        then ([⟨"b", "1"⟩] : List ClipboardItem).dropLast else [⟨"b", "1"⟩]) :=
  insertStep_prepends [⟨"b", "1"⟩] "a" "2" (by decide) (by decide)

/-- C5: the insert step returns the store unchanged (same entries, order
and timestamps) when the candidate text is empty or already present. -/
theorem insertStep_noop (h : List ClipboardItem) (t n : String)
    (hdup : t = "" ∨ contains h t = true) :
    insertStep h t n = h := by
  unfold insertStep
  rw [if_neg]
  rcases hdup with rfl | hc
  · simp
  · simp [hc]

/-- C5 witness at a concrete input. -/
theorem insertStep_noop_witness :
    insertStep [⟨"a", "1"⟩] "a" "2" = [⟨"a", "1"⟩] :=
  insertStep_noop [⟨"a", "1"⟩] "a" "2" (Or.inr (by decide))

/-- C2: every sequence of insert calls from the empty store keeps the
length at most `MAX_ENTRIES` (50); and when the store is exactly at
capacity, inserting a new distinct non-empty value evicts exactly the last
entry (the oldest in the newest-first ordering) before prepending, so the
length stays `MAX_ENTRIES`. -/
theorem insertSeq_capacity :
    (∀ ops : List (String × String), (insertSeq ops).length ≤ MAX_ENTRIES) ∧
    (∀ (h : List ClipboardItem) (t n : String),
      h.length = MAX_ENTRIES → (t == "") = false → contains h t = false →
      insertStep h t n = ⟨t, n⟩ :: h.dropLast ∧
      (insertStep h t n).length = MAX_ENTRIES) := by
  constructor
  · intro ops
    exact (insertSeq_invariant ops [] (by simp [valuesOf]) (by simp [MAX_ENTRIES])).2
  · intro h t n hlen ht hc
    have hcond : (t != "" && !contains h t) = true := by simp [bne, ht, hc]
    have hgoal : insertStep h t n = ⟨t, n⟩ :: h.dropLast := by
      unfold insertStep
      rw [if_pos hcond, if_pos (by omega)]
    refine ⟨hgoal, ?_⟩
    rw [hgoal]
    simp only [List.length_cons, List.length_dropLast]
    simp only [MAX_ENTRIES] at hlen ⊢
    omega

/-- A store holding exactly 50 distinct values, for the capacity witness. -/
def capStore : List ClipboardItem :=
  (List.range MAX_ENTRIES).map fun i => ⟨toString i, "t"⟩

/-- A store holding 51 distinct values, over the cap, as a file written by
another tool could contain. -/
def overStore : List ClipboardItem :=
  (List.range (MAX_ENTRIES + 1)).map fun i => ⟨toString i, "t"⟩

/-- C2 witness at a concrete at-capacity store. -/
theorem insertSeq_capacity_witness :
    insertStep capStore "new" "now" = ⟨"new", "now"⟩ :: capStore.dropLast ∧
    (insertStep capStore "new" "now").length = MAX_ENTRIES :=
  insertSeq_capacity.2 capStore "new" "now" (by decide) (by decide) (by decide)

/-- C10: when the store is already strictly over the 50-entry cap,
inserting a new distinct non-empty value still evicts exactly one entry
(the last), so the resulting length equals the original length and still
exceeds the cap: a single insert does not re-establish the bound. -/
theorem insertStep_over_capacity (h : List ClipboardItem) (t n : String)
    (hlen : MAX_ENTRIES < h.length) (ht : (t == "") = false)
    (hc : contains h t = false) :
    insertStep h t n = ⟨t, n⟩ :: h.dropLast ∧
    (insertStep h t n).length = h.length ∧
    MAX_ENTRIES < (insertStep h t n).length := by
  have hcond : (t != "" && !contains h t) = true := by simp [bne, ht, hc]
  have hgoal : insertStep h t n = ⟨t, n⟩ :: h.dropLast := by
    unfold insertStep
    rw [if_pos hcond, if_pos (by omega)]
  refine ⟨hgoal, ?_, ?_⟩ <;>
    rw [hgoal] <;>
    simp only [List.length_cons, List.length_dropLast] <;>
    simp only [MAX_ENTRIES] at hlen ⊢ <;>
    omega

/-- C10 witness at a concrete 51-entry store. -/
theorem insertStep_over_capacity_witness :
    insertStep overStore "new" "now" = ⟨"new", "now"⟩ :: overStore.dropLast ∧
    (insertStep overStore "new" "now").length = overStore.length ∧
    MAX_ENTRIES < (insertStep overStore "new" "now").length :=
  insertStep_over_capacity overStore "new" "now" (by decide) (by decide) (by decide)

/-- Mirrors Go `ClipboardEntry { Value string; Recorded string }`
(browser section of src/selector/main.go). -/
structure ClipboardEntry where
  value : String
  recorded : String
deriving DecidableEq, Repr

/-- The store transformation applied by Go `deleteJsonItem`: iterate over
the decoded history and append to the accumulator exactly the entries
whose `Value` differs from `item` (the loop at lines 436-441). -/
def deleteJsonItem (history : List ClipboardEntry) (item : String) : List ClipboardEntry :=
  history.foldl (fun acc entry => if entry.value != item then acc ++ [entry] else acc) []

lemma deleteJsonItem_foldl (history : List ClipboardEntry) (item : String) :
    ∀ acc, history.foldl
        (fun acc entry => if entry.value != item then acc ++ [entry] else acc) acc
      = acc ++ history.filter (fun e => e.value != item) := by
  induction history with
  | nil => intro acc; simp
  | cons e es ih =>
      intro acc
      simp only [List.foldl_cons, List.filter_cons]
      by_cases hv : (e.value != item) = true
      · rw [if_pos hv, if_pos hv, ih]
        simp
      · rw [if_neg hv, if_neg hv, ih]

/-- C6: removing a value yields a store with no entry of that value, all
other entries kept with content and relative order intact (the result is
exactly the order-preserving filter); when no entry has the value the
store is returned unchanged. -/
theorem deleteJsonItem_correct (h : List ClipboardEntry) (v : String) :
    (∀ e ∈ deleteJsonItem h v, e.value ≠ v) ∧
    deleteJsonItem h v = h.filter (fun e => e.value != v) ∧
    ((∀ e ∈ h, e.value ≠ v) → deleteJsonItem h v = h) := by
  have hfil : deleteJsonItem h v = h.filter (fun e => e.value != v) := by
    unfold deleteJsonItem
    rw [deleteJsonItem_foldl h v []]
    simp
  refine ⟨?_, hfil, ?_⟩
  · intro e he
    rw [hfil] at he
    have := List.of_mem_filter he
    simpa using this
  · intro hall
    rw [hfil]
    apply List.filter_eq_self.mpr
    intro e he
    simpa using hall e he

/-- C6 witness: deleting an absent value leaves a concrete store unchanged. -/
theorem deleteJsonItem_correct_witness :
    deleteJsonItem [⟨"a", "1"⟩, ⟨"b", "2"⟩] "c" = [⟨"a", "1"⟩, ⟨"b", "2"⟩] :=
  (deleteJsonItem_correct [⟨"a", "1"⟩, ⟨"b", "2"⟩] "c").2.2 (by decide)

/-- JSON values, as produced and consumed by Go `encoding/json` for the
backing file. -/
inductive Json where
  | null : Json
  | bool : Bool → Json
  | num : Int → Json
  | str : String → Json
  | arr : List Json → Json
  | obj : List (String × Json) → Json

/-- Field lookup in a decoded JSON object: as in Go `encoding/json`, when a
key occurs more than once the last occurrence wins. -/
def lookupField : List (String × Json) → String → Option Json
  | [], _ => none
  | (k, v) :: rest, name =>
      match lookupField rest name with
      | some w => some w
      | none => if k == name then some v else none

/-- Decoding a JSON value into a Go `string` field: a JSON string yields
the string, a missing field or JSON `null` leaves the zero value `""`,
anything else is a decode error. -/
def decodeStringField (fields : List (String × Json)) (name : String) : Option String :=
  match lookupField fields name with
  | none => some ""
  | some (Json.str s) => some s
  | some Json.null => some ""
  | some _ => none

/-- Encoding of one `ClipboardItem` by `json.Encoder` via the struct tags
`value` and `recorded`. -/
def encodeItem (it : ClipboardItem) : Json :=
  Json.obj [("value", Json.str it.value), ("recorded", Json.str it.recorded)]

/-- Decoding of one `ClipboardItem` from JSON, mirroring `encoding/json`
unmarshalling into the struct: the value must be an object (or `null`,
which leaves the zero item) and each tagged field must decode as a string. -/
def decodeItem : Json → Option ClipboardItem
  | Json.null => some ⟨"", ""⟩
  | Json.obj fields =>
      match decodeStringField fields "value", decodeStringField fields "recorded" with
      | some v, some r => some ⟨v, r⟩
      | _, _ => none
  | _ => none

/-- Decoding of a JSON array of items, failing if any element fails. -/
def decodeItems : List Json → Option (List ClipboardItem)
  | [] => some []
  | j :: js =>
      match decodeItem j, decodeItems js with
      | some it, some its => some (it :: its)
      | _, _ => none

/-- The JSON document written by Go `saveDataToFile`: the `Data` struct
encoded as an object with the single tagged field `clipboardHistory`. -/
def saveDataToFile (data : Data) : Json :=
  Json.obj [("clipboardHistory", Json.arr (data.ClipboardHistory.map encodeItem))]

/-- The decoding performed by Go `loadDataFromFile` into a zero-valued
`Data`: the document must be an object (or `null`); a missing or `null`
`clipboardHistory` field leaves the empty history, an array decodes
element-wise, anything else is a decode error. -/
def loadDataFromFile : Json → Option Data
  | Json.null => some ⟨[]⟩
  | Json.obj fields =>
      match lookupField fields "clipboardHistory" with
      | none => some ⟨[]⟩
      | some Json.null => some ⟨[]⟩
      | some (Json.arr js) =>
          match decodeItems js with
          | some its => some ⟨its⟩
          | none => none
      | some _ => none
  | _ => none

lemma decodeItem_encodeItem (it : ClipboardItem) :
    decodeItem (encodeItem it) = some it := rfl

lemma decodeItems_map (l : List ClipboardItem) :
    decodeItems (l.map encodeItem) = some l := by
  induction l with
  | nil => rfl
  | cons it its ih =>
      simp only [List.map_cons, decodeItems, decodeItem_encodeItem, ih]

/-- C3: for every store satisfying the uniqueness and capacity invariants,
decoding the saved JSON document yields the original store:
`Load(Save(store)) == store`. -/
theorem load_save_roundtrip (d : Data)
    (hnodup : (valuesOf d.ClipboardHistory).Nodup)
    (hlen : d.ClipboardHistory.length ≤ MAX_ENTRIES) :
    loadDataFromFile (saveDataToFile d) = some d := by
  simp only [saveDataToFile, loadDataFromFile, lookupField]
  rw [if_pos (by decide)]
  simp only [decodeItems_map]

/-- C3 witness at a concrete two-entry store. -/
theorem load_save_roundtrip_witness :
    loadDataFromFile (saveDataToFile ⟨[⟨"a", "1"⟩, ⟨"b", "2"⟩]⟩) =
      some ⟨[⟨"a", "1"⟩, ⟨"b", "2"⟩]⟩ :=
  load_save_roundtrip ⟨[⟨"a", "1"⟩, ⟨"b", "2"⟩]⟩ (by decide) (by decide)

/-- One decimal digit character, as emitted by Go's integer formatting. -/
def digitChar (n : Nat) : Char :=
  match n with
  | 0 => '0'
  | 1 => '1'
  | 2 => '2'
  | 3 => '3'
  | 4 => '4'
  | 5 => '5'
  | 6 => '6'
  | 7 => '7'
  | 8 => '8'
  | 9 => '9'
  | _ => '*'

/-- The decimal digits of `v` zero-padded to width `k`, as Go
`time.Time.String` renders each date/time component. -/
def padDigits : Nat → Nat → List Char
  | _, 0 => []
  | v, k + 1 => padDigits (v / 10) k ++ [digitChar (v % 10)]

/-- Go `fmtFrac`: the `k` fractional-second digits of `v` with trailing
zeros stripped (empty when they are all zero). -/
def stripFrac : Nat → Nat → List Char
  | _, 0 => []
  | v, k + 1 =>
      if v % 10 = 0 then stripFrac (v / 10) k
      else padDigits (v / 10) k ++ [digitChar (v % 10)]

/-- The fractional part of Go `time.Time.String`: a dot followed by the
trimmed sub-second digits, absent when the nanosecond count is zero. -/
def fracPart (nanos : Nat) : List Char :=
  if stripFrac nanos 9 = [] then [] else '.' :: stripFrac nanos 9

/-- A broken-down UTC instant, the input of Go `time.Time.String`. -/
structure GoTime where
  year : Nat
  month : Nat
  day : Nat
  hour : Nat
  minute : Nat
  second : Nat
  nanos : Nat
deriving DecidableEq, Repr

/-- The characters of `time.Now().UTC().String()` up to the offset:
`2006-01-02 15:04:05` plus the trimmed fractional part. -/
def goTimePrefix (t : GoTime) : List Char :=
  padDigits t.year 4 ++ '-' :: (padDigits t.month 2 ++ '-' :: (padDigits t.day 2 ++ ' ' ::
    (padDigits t.hour 2 ++ ':' :: (padDigits t.minute 2 ++ ':' ::
      (padDigits t.second 2 ++ fracPart t.nanos)))))

/-- The characters of the whole `time.Now().UTC().String()` rendering:
layout `2006-01-02 15:04:05.999999999 +0000 UTC`. -/
def goTimeChars (t : GoTime) : List Char :=
  goTimePrefix t ++ (" +0000 UTC").data

/-- Go `strings.Split(s, sep)[0]`: the characters before the first
occurrence of `sep`, or all of them when `sep` does not occur. -/
def takeUntilSep (sep : List Char) : List Char → List Char
  | [] => []
  | c :: cs => if sep.isPrefixOf (c :: cs) then [] else c :: takeUntilSep sep cs

/-- The recorded-time string computed by `runListener` (line 62):
`strings.Split(time.Now().UTC().String(), "+0000")[0]`. -/
def timeNowRecorded (t : GoTime) : String :=
  String.mk (takeUntilSep ("+0000".data) (goTimeChars t))

/-- A timestamp string is second-precision when it carries no
fractional-second part, i.e. no dot character. -/
def hasSecondPrecision (s : String) : Bool :=
  !decide ('.' ∈ s.data)

lemma digitChar_ne_plus (n : Nat) : digitChar n ≠ '+' := by
  unfold digitChar
  split <;> decide

lemma padDigits_ne_plus (v k : Nat) : '+' ∉ padDigits v k := by
  induction k generalizing v with
  | zero => simp [padDigits]
  | succ k ih =>
      simp only [padDigits, List.mem_append, List.mem_singleton]
      rintro (hm | hm)
      · exact ih _ hm
      · exact digitChar_ne_plus _ hm.symm

lemma stripFrac_ne_plus (v k : Nat) : '+' ∉ stripFrac v k := by
  induction k generalizing v with
  | zero => simp [stripFrac]
  | succ k ih =>
      simp only [stripFrac]
      split
      · exact ih _
      · simp only [List.mem_append, List.mem_singleton]
        rintro (hm | hm)
        · exact padDigits_ne_plus _ _ hm
        · exact digitChar_ne_plus _ hm.symm

lemma fracPart_ne_plus (n : Nat) : '+' ∉ fracPart n := by
  unfold fracPart
  split
  · simp
  · intro hm
    rcases List.mem_cons.mp hm with h1 | h2
    · exact absurd h1 (by decide)
    · exact stripFrac_ne_plus n 9 h2

lemma takeUntilSep_spec (a : List Char) (ha : '+' ∉ a) :
    takeUntilSep ("+0000".data) (a ++ ("+0000 UTC").data) = a := by
  induction a with
  | nil => decide
  | cons c cs ih =>
      have hc : c ≠ '+' := fun h => ha (h ▸ List.mem_cons_self c cs)
      have hbeq : ('+' == c) = false := beq_eq_false_iff_ne.mpr (Ne.symm hc)
      have hrest := ih fun hm => ha (List.mem_cons_of_mem c hm)
      simp only [List.cons_append, takeUntilSep, List.isPrefixOf, hbeq, Bool.false_and,
        Bool.false_eq_true, if_false, List.append_eq] at hrest ⊢
      rw [hrest]

lemma stripFrac_eq_nil_imp (k : Nat) : ∀ v, stripFrac v k = [] → v % 10 ^ k = 0 := by
  induction k with
  | zero => intro v _; simp [Nat.mod_one]
  | succ k ih =>
      intro v hv
      simp only [stripFrac] at hv
      split at hv
      · rename_i h10
        have hk := ih _ hv
        have h1 : (10 : Nat) ∣ v := Nat.dvd_of_mod_eq_zero h10
        have h2 : (10 : Nat) ^ k ∣ v / 10 := Nat.dvd_of_mod_eq_zero hk
        have h3 : (10 : Nat) ^ (k + 1) ∣ v := by
          obtain ⟨w, hw⟩ := h2
          have hv10 : v = 10 * (v / 10) := (Nat.mul_div_cancel' h1).symm
          refine ⟨w, ?_⟩
          rw [hv10, hw, pow_succ]
          ring
        exact Nat.dvd_iff_mod_eq_zero.mp h3
      · exact absurd hv (by simp)

lemma fracPart_has_dot (n : Nat) (hn : n < 1000000000) (hnz : n ≠ 0) :
    '.' ∈ fracPart n := by
  unfold fracPart
  split
  · rename_i hnil
    have h0 := stripFrac_eq_nil_imp 9 n hnil
    rw [Nat.mod_eq_of_lt (by norm_num; exact hn)] at h0
    exact absurd h0 hnz
  · exact List.mem_cons_self _ _

/-- C7 counterexample: at the UTC instant 2024-05-01 12:00:00.123456789,
the entry created by the insert step records the string
`2024-05-01 12:00:00.123456789 ` (sub-second digits and a trailing space),
which is not a second-precision timestamp. -/
theorem insert_timestamp_not_second_precision :
    (insertStep [] "hello"
        (timeNowRecorded ⟨2024, 5, 1, 12, 0, 0, 123456789⟩)).headD ⟨"", ""⟩ =
      ⟨"hello", "2024-05-01 12:00:00.123456789 "⟩ ∧
    hasSecondPrecision "2024-05-01 12:00:00.123456789 " = false := by
  decide

/-- C7 amended: an entry created by the insert step records the prefix of
Go's UTC time string before the `+0000` offset: date, time of day, the
fractional-second part trimmed of trailing zeros (absent when the
nanosecond count is zero), and a trailing space; whenever the nanosecond
count is non-zero the recorded string carries sub-second digits, so its
precision is finer than one second. -/
theorem insert_timestamp_format (t : GoTime) (hn : t.nanos < 1000000000) :
    (timeNowRecorded t).data = goTimePrefix t ++ [' '] ∧
    (t.nanos ≠ 0 → hasSecondPrecision (timeNowRecorded t) = false) ∧
    (∀ (h : List ClipboardItem) (text : String), (text == "") = false →
      contains h text = false →
      (insertStep h text (timeNowRecorded t))[0]? = some ⟨text, timeNowRecorded t⟩) := by
  have hplus : '+' ∉ goTimePrefix t ++ [' '] := by
    intro hm
    rcases List.mem_append.mp hm with hm | hm
    · unfold goTimePrefix at hm
      simp only [List.mem_append, List.mem_cons] at hm
      rcases hm with hm | hm | hm | hm | hm | hm | hm | hm | hm | hm | hm | hm
      all_goals first
        | exact padDigits_ne_plus _ _ hm
        | exact fracPart_ne_plus _ hm
        | exact absurd hm (by decide)
    · exact absurd hm (by decide)
  have hsplit : goTimeChars t = (goTimePrefix t ++ [' ']) ++ ("+0000 UTC").data := by
    unfold goTimeChars
    rw [List.append_assoc]
    rfl
  have hdata : (timeNowRecorded t).data = goTimePrefix t ++ [' '] := by
    show takeUntilSep ("+0000".data) (goTimeChars t) = goTimePrefix t ++ [' ']
    rw [hsplit, takeUntilSep_spec _ hplus]
  refine ⟨hdata, ?_, ?_⟩
  · intro hnz
    have hdot : '.' ∈ (timeNowRecorded t).data := by
      rw [hdata]
      refine List.mem_append.mpr (Or.inl ?_)
      have hfrac := fracPart_has_dot t.nanos hn hnz
      unfold goTimePrefix
      simp only [List.mem_append, List.mem_cons]
      tauto
    simp [hasSecondPrecision, hdot]
  · intro h text ht hc
    have hcond : (text != "" && !contains h text) = true := by simp [bne, ht, hc]
    unfold insertStep
    rw [if_pos hcond]
    simp

/-- C7 amended witness: at a concrete instant with non-zero nanoseconds,
the recorded string is not second-precision. -/
theorem insert_timestamp_format_witness :
    hasSecondPrecision (timeNowRecorded ⟨2024, 5, 1, 12, 0, 0, 123456789⟩) = false :=
  (insert_timestamp_format ⟨2024, 5, 1, 12, 0, 0, 123456789⟩ (by decide)).2.1 (by decide)

/-- The browser-session state visible to the copy handler of
`newItemDelegate`: the in-memory item list, the persisted backing file
(decoded) and the system clipboard content. -/
structure BrowserState where
  items : List ClipboardEntry
  file : List ClipboardEntry
  clipboard : String
deriving DecidableEq, Repr

/-- Outcome of one delegate update: either the handler panicked (Go
`panic(err)` unwinds out of the event loop) or it returned normally with a
status message and the resulting state. -/
inductive CopyResult where
  | panicked : String → BrowserState → CopyResult
  | ok : String → BrowserState → CopyResult
deriving DecidableEq, Repr

/-- Go `clipboard.WriteAll(s)`: on success the clipboard holds `s`; the
environment decides failure, modelled by the error value `writeErr`. -/
def clipboardWriteAll (writeErr : Option String) (st : BrowserState) (s : String) :
    Option String × BrowserState :=
  match writeErr with
  | some e => (some e, st)
  | none => (none, ⟨st.items, st.file, s⟩)

/-- The `choose` (copy) branch of `newItemDelegate`
(src/selector/main.go lines 317-322): write the selected item's full value
to the clipboard; `panic(err)` when the write fails, otherwise return the
`Copied to clipboard` status message. -/
def chooseAction (writeErr : Option String) (st : BrowserState) (fullValue title : String) :
    CopyResult :=
  match clipboardWriteAll writeErr st fullValue with
  | (some e, st') => CopyResult.panicked e st'
  | (none, st') => CopyResult.ok ("Copied to clipboard: " ++ title) st'

/-- A Go panic unwinds out of the bubbletea event loop and terminates the
process, so only a normally returning update keeps the session running. -/
def continuesRunning : CopyResult → Bool
  | CopyResult.panicked _ _ => false
  | CopyResult.ok _ _ => true

/-- The session state carried by an update outcome. -/
def stateAfter : CopyResult → BrowserState
  | CopyResult.panicked _ st => st
  | CopyResult.ok _ st => st

/-- C8 counterexample: at a concrete state, when the clipboard write of
the copy intent fails, the handler panics and the browser session does
not continue running, contradicting the claim that the failure is fatal
only to that single action. -/
theorem chooseAction_failure_not_continue_at :
    chooseAction (some "write failed") ⟨[⟨"a", "1"⟩], [⟨"a", "1"⟩], ""⟩ "a" "a" =
      CopyResult.panicked "write failed" ⟨[⟨"a", "1"⟩], [⟨"a", "1"⟩], ""⟩ ∧
    continuesRunning
      (chooseAction (some "write failed") ⟨[⟨"a", "1"⟩], [⟨"a", "1"⟩], ""⟩ "a" "a") = false := by
  decide

/-- C8 amended: when the clipboard write performed by the copy intent
fails, the handler panics with that error, which terminates the whole
browser session rather than only the single action; no status message is
produced and the session does not continue running. -/
theorem chooseAction_failure_panics (st : BrowserState) (v title err : String) :
    chooseAction (some err) st v title = CopyResult.panicked err st ∧
    continuesRunning (chooseAction (some err) st v title) = false := by
  exact ⟨rfl, rfl⟩

/-- C9: a successful copy intent writes the selected entry's full value to
the system clipboard and leaves the store untouched: the in-memory item
list and the persisted backing file of the resulting state are exactly
those of the original state. -/
theorem chooseAction_copy_frame (st : BrowserState) (entry : ClipboardEntry) (title : String) :
    chooseAction none st entry.value title =
      CopyResult.ok ("Copied to clipboard: " ++ title) ⟨st.items, st.file, entry.value⟩ ∧
    (stateAfter (chooseAction none st entry.value title)).clipboard = entry.value ∧
    (stateAfter (chooseAction none st entry.value title)).items = st.items ∧
    (stateAfter (chooseAction none st entry.value title)).file = st.file := by
  exact ⟨rfl, rfl, rfl, rfl⟩
